import Mathlib

/-!
Verification development for the mz::endian serialization toolkit
(EndianConversions.h, EndianConcepts.h, EndianBasicBuffers.h,
EndianBasicVector.h, EndianVector.h, EndianByteArray.h).

Memory is modelled as a list of bytes (natural numbers below 256); machine
integers are natural numbers with explicit reduction modulo 2^(8*w) where the
C++ code relies on fixed-width wraparound.  Pointers become offsets into the
byte list, so a BasicWriteBuffer / BasicReadBuffer is a byte list together
with its begin/end offsets.
-/

/-- The two byte orders, mirroring std::endian as used by the library. -/
inductive Endian where
  | little : Endian
  | big : Endian
deriving DecidableEq, Repr

/-- Little-endian byte decomposition of a value occupying w bytes
(least significant byte first), as produced by memcpy on a little-endian
machine. -/
def leBytes : Nat → Nat → List Nat
  | 0, _ => []
  | w + 1, x => (x % 256) :: leBytes w (x / 256)

/-- Recomposition of a little-endian byte list into a value. -/
def fromLeBytes : List Nat → Nat
  | [] => 0
  | b :: bs => b + 256 * fromLeBytes bs

/-- Bytes of a value as laid out in memory by memcpy on a machine with the
given native byte order. -/
def natBytes (native : Endian) (w x : Nat) : List Nat :=
  match native with
  | .little => leBytes w x
  | .big => (leBytes w x).reverse

/-- Value obtained by memcpy-ing a byte list into an integer on a machine
with the given native byte order. -/
def fromNatBytes (native : Endian) (bs : List Nat) : Nat :=
  match native with
  | .little => fromLeBytes bs
  | .big => fromLeBytes bs.reverse

/-- The MZ_BSWAP16 fallback macro of EndianConversions.h:
mask-and-shift byte reversal of a 16-bit value, with the uint16_t casts
rendered as reduction modulo 2^16. -/
def MZ_BSWAP16 (x : Nat) : Nat :=
  ((((x % 2 ^ 16) &&& 0xFF00) >>> 8) |||
   (((x % 2 ^ 16) &&& 0x00FF) <<< 8)) % 2 ^ 16

/-- The MZ_BSWAP32 fallback macro of EndianConversions.h. -/
def MZ_BSWAP32 (x : Nat) : Nat :=
  ((((x % 2 ^ 32) &&& 0xFF000000) >>> 24) |||
   (((x % 2 ^ 32) &&& 0x00FF0000) >>> 8) |||
   (((x % 2 ^ 32) &&& 0x0000FF00) <<< 8) |||
   (((x % 2 ^ 32) &&& 0x000000FF) <<< 24)) % 2 ^ 32

/-- The MZ_BSWAP64 fallback macro of EndianConversions.h. -/
def MZ_BSWAP64 (x : Nat) : Nat :=
  ((((x % 2 ^ 64) &&& 0xFF00000000000000) >>> 56) |||
   (((x % 2 ^ 64) &&& 0x00FF000000000000) >>> 40) |||
   (((x % 2 ^ 64) &&& 0x0000FF0000000000) >>> 24) |||
   (((x % 2 ^ 64) &&& 0x000000FF00000000) >>> 8) |||
   (((x % 2 ^ 64) &&& 0x00000000FF000000) <<< 8) |||
   (((x % 2 ^ 64) &&& 0x0000000000FF0000) <<< 24) |||
   (((x % 2 ^ 64) &&& 0x000000000000FF00) <<< 40) |||
   (((x % 2 ^ 64) &&& 0x00000000000000FF) <<< 56)) % 2 ^ 64

/-- The integral byteSwap of EndianConversions.h: dispatch on sizeof(T);
one-byte values are returned unchanged, and the final else branch (guarded by
a static_assert in the source) also returns the value unchanged. -/
def byteSwap (w x : Nat) : Nat :=
  if w = 1 then x
  else if w = 2 then MZ_BSWAP16 x
  else if w = 4 then MZ_BSWAP32 x
  else if w = 8 then MZ_BSWAP64 x
  else x

/-- The enumeration byteSwap of EndianConversions.h: for one-byte enums the
value is returned unchanged, otherwise the value is converted to its
underlying integer, swapped and converted back (an identity at the level of
bit patterns, hence of our Nat model). -/
def byteSwapEnum (w x : Nat) : Nat :=
  if w = 1 then x else byteSwap w x

/- ### Bitwise bridging lemmas -/

/-- Masking with a shifted mask extracts the corresponding field: this turns
the mask-and-shift macro terms into arithmetic on div and mod. -/
theorem and_shiftLeft_eq (x m n : Nat) :
    x &&& (m <<< n) = ((x >>> n) &&& m) <<< n := by
  apply Nat.eq_of_testBit_eq
  intro j
  simp only [Nat.testBit_and, Nat.testBit_shiftLeft, Nat.testBit_shiftRight]
  by_cases h : n ≤ j
  · have hj : n + (j - n) = j := by omega
    simp [ge_iff_le, h, hj, Bool.and_comm, Bool.and_left_comm]
  · simp [ge_iff_le, h]

/-- A shifted value or-ed with a small value is their sum (the summands have
disjoint bit ranges). -/
theorem shiftLeft_or_eq_add (c b n : Nat) (hb : b < 2 ^ n) :
    (c <<< n) ||| b = c <<< n + b := by
  apply Nat.eq_of_testBit_eq
  intro j
  have hrw : c <<< n + b = 2 ^ n * c + b := by rw [Nat.shiftLeft_eq]; ring_nf
  rw [hrw, Nat.testBit_mul_pow_two_add c hb j]
  simp only [Nat.testBit_or, Nat.testBit_shiftLeft]
  by_cases h : j < n
  · have hge : ¬ (j ≥ n) := by omega
    simp [hge, h]
  · have hge : j ≥ n := by omega
    have hbj : b.testBit j = false :=
      Nat.testBit_lt_two_pow (lt_of_lt_of_le hb (Nat.pow_le_pow_right (by omega) hge))
    simp [hge, h, hbj]

theorem shiftLeft_shiftRight_sub (a m k : Nat) (h : k ≤ m) :
    (a <<< m) >>> k = a <<< (m - k) := by
  rw [Nat.shiftLeft_eq, Nat.shiftLeft_eq, Nat.shiftRight_eq_div_pow]
  have : (2 : Nat) ^ m = 2 ^ (m - k) * 2 ^ k := by
    rw [← pow_add]; congr 1; omega
  rw [this, ← Nat.mul_assoc, Nat.mul_div_cancel _ (Nat.pos_pow_of_pos k (by omega))]

theorem and_255_eq_mod (x : Nat) : x &&& 255 = x % 256 := by
  have h := Nat.and_pow_two_sub_one_eq_mod x 8
  norm_num at h
  exact h

/-- Byte extraction: the combination of the three lemmas above, in the form
each macro term takes. -/
theorem mask_term_eq (x n : Nat) :
    x &&& (255 <<< n) = (x / 2 ^ n % 256) <<< n := by
  rw [and_shiftLeft_eq, and_255_eq_mod, Nat.shiftRight_eq_div_pow]

theorem MZ_BSWAP16_eq (x : Nat) :
    MZ_BSWAP16 x = x % 2 ^ 16 / 2 ^ 8 % 256 + x % 2 ^ 8 * 2 ^ 8 := by
  unfold MZ_BSWAP16
  have h1 : (0xFF00 : Nat) = 255 <<< 8 := by decide
  set y := x % 2 ^ 16 with hy
  rw [h1, mask_term_eq, and_255_eq_mod]
  rw [shiftLeft_shiftRight_sub _ _ _ (by omega)]
  simp only [Nat.sub_self, Nat.shiftLeft_zero]
  have hble : y / 2 ^ 8 % 256 < 2 ^ 8 := by
    have := Nat.mod_lt (y / 2 ^ 8) (show 0 < 256 by norm_num)
    omega
  rw [Nat.or_comm, shiftLeft_or_eq_add _ _ _ hble]
  rw [Nat.shiftLeft_eq]
  have hy8 : y % 256 = x % 2 ^ 8 := Nat.mod_mod_of_dvd x (by norm_num)
  have ha : y / 2 ^ 8 % 256 < 256 := Nat.mod_lt _ (by norm_num)
  have hb : y % 256 < 256 := Nat.mod_lt _ (by norm_num)
  rw [Nat.mod_eq_of_lt (by nlinarith)]
  rw [hy8]
  ring

theorem MZ_BSWAP32_eq (x : Nat) :
    MZ_BSWAP32 x = x % 2 ^ 32 / 2 ^ 24 % 256 + x % 2 ^ 32 / 2 ^ 16 % 256 * 2 ^ 8
      + x % 2 ^ 32 / 2 ^ 8 % 256 * 2 ^ 16 + x % 2 ^ 32 % 256 * 2 ^ 24 := by
  unfold MZ_BSWAP32
  have h3 : (0xFF000000 : Nat) = 255 <<< 24 := by decide
  have h2 : (0x00FF0000 : Nat) = 255 <<< 16 := by decide
  have h1 : (0x0000FF00 : Nat) = 255 <<< 8 := by decide
  set y := x % 2 ^ 32 with hy
  rw [h3, h2, h1, mask_term_eq, mask_term_eq, mask_term_eq, and_255_eq_mod]
  rw [shiftLeft_shiftRight_sub _ _ _ (by omega), shiftLeft_shiftRight_sub _ _ _ (by omega),
      ← Nat.shiftLeft_add]
  simp only [Nat.sub_self, Nat.shiftLeft_zero, show (16 : Nat) - 8 = 8 from rfl,
    show (8 : Nat) + 8 = 16 from rfl]
  set a := y / 2 ^ 24 % 256 with hadef
  set b := y / 2 ^ 16 % 256 with hbdef
  set c := y / 2 ^ 8 % 256 with hcdef
  set d := y % 256 with hddef
  have ha : a < 2 ^ 8 := by have := Nat.mod_lt (y / 2 ^ 24) (show 0 < 256 by norm_num); omega
  have hb : b < 2 ^ 8 := by have := Nat.mod_lt (y / 2 ^ 16) (show 0 < 256 by norm_num); omega
  have hc : c < 2 ^ 8 := by have := Nat.mod_lt (y / 2 ^ 8) (show 0 < 256 by norm_num); omega
  have hd : d < 2 ^ 8 := by have := Nat.mod_lt y (show 0 < 256 by norm_num); omega
  have e1 : a ||| b <<< 8 = b <<< 8 + a := by
    rw [Nat.or_comm, shiftLeft_or_eq_add _ _ _ ha]
  rw [e1]
  have s1lt : b <<< 8 + a < 2 ^ 16 := by rw [Nat.shiftLeft_eq]; omega
  have e2 : b <<< 8 + a ||| c <<< 16 = c <<< 16 + (b <<< 8 + a) := by
    rw [Nat.or_comm, shiftLeft_or_eq_add _ _ _ s1lt]
  rw [e2]
  have s2lt : c <<< 16 + (b <<< 8 + a) < 2 ^ 24 := by
    rw [Nat.shiftLeft_eq, Nat.shiftLeft_eq]; omega
  have e3 : c <<< 16 + (b <<< 8 + a) ||| d <<< 24 = d <<< 24 + (c <<< 16 + (b <<< 8 + a)) := by
    rw [Nat.or_comm, shiftLeft_or_eq_add _ _ _ s2lt]
  rw [e3]
  rw [Nat.shiftLeft_eq, Nat.shiftLeft_eq, Nat.shiftLeft_eq]
  omega

theorem MZ_BSWAP64_eq (x : Nat) :
    MZ_BSWAP64 x = x % 2 ^ 64 / 2 ^ 56 % 256
      + x % 2 ^ 64 / 2 ^ 48 % 256 * 2 ^ 8
      + x % 2 ^ 64 / 2 ^ 40 % 256 * 2 ^ 16
      + x % 2 ^ 64 / 2 ^ 32 % 256 * 2 ^ 24
      + x % 2 ^ 64 / 2 ^ 24 % 256 * 2 ^ 32
      + x % 2 ^ 64 / 2 ^ 16 % 256 * 2 ^ 40
      + x % 2 ^ 64 / 2 ^ 8 % 256 * 2 ^ 48
      + x % 2 ^ 64 % 256 * 2 ^ 56 := by
  unfold MZ_BSWAP64
  have h7 : (0xFF00000000000000 : Nat) = 255 <<< 56 := by decide
  have h6 : (0x00FF000000000000 : Nat) = 255 <<< 48 := by decide
  have h5 : (0x0000FF0000000000 : Nat) = 255 <<< 40 := by decide
  have h4 : (0x000000FF00000000 : Nat) = 255 <<< 32 := by decide
  have h3 : (0x00000000FF000000 : Nat) = 255 <<< 24 := by decide
  have h2 : (0x0000000000FF0000 : Nat) = 255 <<< 16 := by decide
  have h1 : (0x000000000000FF00 : Nat) = 255 <<< 8 := by decide
  set y := x % 2 ^ 64 with hy
  rw [h7, h6, h5, h4, h3, h2, h1, mask_term_eq, mask_term_eq, mask_term_eq, mask_term_eq,
    mask_term_eq, mask_term_eq, mask_term_eq, and_255_eq_mod]
  rw [shiftLeft_shiftRight_sub _ _ _ (by omega), shiftLeft_shiftRight_sub _ _ _ (by omega),
    shiftLeft_shiftRight_sub _ _ _ (by omega), shiftLeft_shiftRight_sub _ _ _ (by omega),
    ← Nat.shiftLeft_add, ← Nat.shiftLeft_add, ← Nat.shiftLeft_add]
  simp only [Nat.sub_self, Nat.shiftLeft_zero,
    show (48 : Nat) - 40 = 8 from rfl, show (40 : Nat) - 24 = 16 from rfl,
    show (32 : Nat) - 8 = 24 from rfl, show (24 : Nat) + 8 = 32 from rfl,
    show (16 : Nat) + 24 = 40 from rfl, show (8 : Nat) + 40 = 48 from rfl]
  set a7 := y / 2 ^ 56 % 256 with h7d
  set a6 := y / 2 ^ 48 % 256 with h6d
  set a5 := y / 2 ^ 40 % 256 with h5d
  set a4 := y / 2 ^ 32 % 256 with h4d
  set a3 := y / 2 ^ 24 % 256 with h3d
  set a2 := y / 2 ^ 16 % 256 with h2d
  set a1 := y / 2 ^ 8 % 256 with h1d
  set a0 := y % 256 with h0d
  have b7 : a7 < 2 ^ 8 := by have := Nat.mod_lt (y / 2 ^ 56) (show 0 < 256 by norm_num); omega
  have b6 : a6 < 2 ^ 8 := by have := Nat.mod_lt (y / 2 ^ 48) (show 0 < 256 by norm_num); omega
  have b5 : a5 < 2 ^ 8 := by have := Nat.mod_lt (y / 2 ^ 40) (show 0 < 256 by norm_num); omega
  have b4 : a4 < 2 ^ 8 := by have := Nat.mod_lt (y / 2 ^ 32) (show 0 < 256 by norm_num); omega
  have b3 : a3 < 2 ^ 8 := by have := Nat.mod_lt (y / 2 ^ 24) (show 0 < 256 by norm_num); omega
  have b2 : a2 < 2 ^ 8 := by have := Nat.mod_lt (y / 2 ^ 16) (show 0 < 256 by norm_num); omega
  have b1 : a1 < 2 ^ 8 := by have := Nat.mod_lt (y / 2 ^ 8) (show 0 < 256 by norm_num); omega
  have b0 : a0 < 2 ^ 8 := by have := Nat.mod_lt y (show 0 < 256 by norm_num); omega
  have e1 : a7 ||| a6 <<< 8 = a6 <<< 8 + a7 := by
    rw [Nat.or_comm, shiftLeft_or_eq_add _ _ _ b7]
  rw [e1]
  have s1 : a6 <<< 8 + a7 < 2 ^ 16 := by rw [Nat.shiftLeft_eq]; omega
  have e2 : a6 <<< 8 + a7 ||| a5 <<< 16 = a5 <<< 16 + (a6 <<< 8 + a7) := by
    rw [Nat.or_comm, shiftLeft_or_eq_add _ _ _ s1]
  rw [e2]
  have s2 : a5 <<< 16 + (a6 <<< 8 + a7) < 2 ^ 24 := by
    rw [Nat.shiftLeft_eq, Nat.shiftLeft_eq]; omega
  have e3 : a5 <<< 16 + (a6 <<< 8 + a7) ||| a4 <<< 24
      = a4 <<< 24 + (a5 <<< 16 + (a6 <<< 8 + a7)) := by
    rw [Nat.or_comm, shiftLeft_or_eq_add _ _ _ s2]
  rw [e3]
  have s3 : a4 <<< 24 + (a5 <<< 16 + (a6 <<< 8 + a7)) < 2 ^ 32 := by
    rw [Nat.shiftLeft_eq, Nat.shiftLeft_eq, Nat.shiftLeft_eq]; omega
  have e4 : a4 <<< 24 + (a5 <<< 16 + (a6 <<< 8 + a7)) ||| a3 <<< 32
      = a3 <<< 32 + (a4 <<< 24 + (a5 <<< 16 + (a6 <<< 8 + a7))) := by
    rw [Nat.or_comm, shiftLeft_or_eq_add _ _ _ s3]
  rw [e4]
  have s4 : a3 <<< 32 + (a4 <<< 24 + (a5 <<< 16 + (a6 <<< 8 + a7))) < 2 ^ 40 := by
    rw [Nat.shiftLeft_eq, Nat.shiftLeft_eq, Nat.shiftLeft_eq, Nat.shiftLeft_eq]; omega
  have e5 : a3 <<< 32 + (a4 <<< 24 + (a5 <<< 16 + (a6 <<< 8 + a7))) ||| a2 <<< 40
      = a2 <<< 40 + (a3 <<< 32 + (a4 <<< 24 + (a5 <<< 16 + (a6 <<< 8 + a7)))) := by
    rw [Nat.or_comm, shiftLeft_or_eq_add _ _ _ s4]
  rw [e5]
  have s5 : a2 <<< 40 + (a3 <<< 32 + (a4 <<< 24 + (a5 <<< 16 + (a6 <<< 8 + a7)))) < 2 ^ 48 := by
    rw [Nat.shiftLeft_eq, Nat.shiftLeft_eq, Nat.shiftLeft_eq, Nat.shiftLeft_eq,
      Nat.shiftLeft_eq]; omega
  have e6 : a2 <<< 40 + (a3 <<< 32 + (a4 <<< 24 + (a5 <<< 16 + (a6 <<< 8 + a7)))) ||| a1 <<< 48
      = a1 <<< 48 + (a2 <<< 40 + (a3 <<< 32 + (a4 <<< 24 + (a5 <<< 16 + (a6 <<< 8 + a7))))) := by
    rw [Nat.or_comm, shiftLeft_or_eq_add _ _ _ s5]
  rw [e6]
  have s6 : a1 <<< 48 + (a2 <<< 40 + (a3 <<< 32 + (a4 <<< 24 + (a5 <<< 16 + (a6 <<< 8 + a7)))))
      < 2 ^ 56 := by
    rw [Nat.shiftLeft_eq, Nat.shiftLeft_eq, Nat.shiftLeft_eq, Nat.shiftLeft_eq,
      Nat.shiftLeft_eq, Nat.shiftLeft_eq]; omega
  have e7 : a1 <<< 48 + (a2 <<< 40 + (a3 <<< 32 + (a4 <<< 24 + (a5 <<< 16 + (a6 <<< 8 + a7)))))
        ||| a0 <<< 56
      = a0 <<< 56
        + (a1 <<< 48 + (a2 <<< 40 + (a3 <<< 32 + (a4 <<< 24 + (a5 <<< 16 + (a6 <<< 8 + a7)))))) := by
    rw [Nat.or_comm, shiftLeft_or_eq_add _ _ _ s6]
  rw [e7]
  rw [Nat.shiftLeft_eq, Nat.shiftLeft_eq, Nat.shiftLeft_eq, Nat.shiftLeft_eq,
    Nat.shiftLeft_eq, Nat.shiftLeft_eq, Nat.shiftLeft_eq]
  omega

theorem MZ_BSWAP16_lt (x : Nat) : MZ_BSWAP16 x < 2 ^ 16 := by
  unfold MZ_BSWAP16; exact Nat.mod_lt _ (by norm_num)

theorem MZ_BSWAP32_lt (x : Nat) : MZ_BSWAP32 x < 2 ^ 32 := by
  unfold MZ_BSWAP32; exact Nat.mod_lt _ (by norm_num)

theorem MZ_BSWAP64_lt (x : Nat) : MZ_BSWAP64 x < 2 ^ 64 := by
  unfold MZ_BSWAP64; exact Nat.mod_lt _ (by norm_num)

theorem leBytes_length (w x : Nat) : (leBytes w x).length = w := by
  induction w generalizing x with
  | zero => rfl
  | succ n ih => simp [leBytes, ih]

theorem leBytes_entries_lt (w x : Nat) : ∀ b ∈ leBytes w x, b < 256 := by
  induction w generalizing x with
  | zero => intro b hb; simp [leBytes] at hb
  | succ n ih =>
    intro b hb
    simp only [leBytes, List.mem_cons] at hb
    rcases hb with hb | hb
    · subst hb; exact Nat.mod_lt _ (by norm_num)
    · exact ih _ b hb

theorem fromLeBytes_leBytes (w x : Nat) : fromLeBytes (leBytes w x) = x % 2 ^ (8 * w) := by
  induction w generalizing x with
  | zero => simp [leBytes, fromLeBytes, Nat.mod_one]
  | succ n ih =>
    have hpow : (2 : Nat) ^ (8 * (n + 1)) = 256 * 2 ^ (8 * n) := by
      rw [show 8 * (n + 1) = 8 + 8 * n by ring, pow_add]; norm_num
    rw [leBytes, fromLeBytes, ih, hpow, Nat.mod_mul]

theorem leBytes_fromLeBytes (l : List Nat) (hl : ∀ b ∈ l, b < 256) :
    leBytes l.length (fromLeBytes l) = l := by
  induction l with
  | nil => rfl
  | cons b bs ih =>
    have hb : b < 256 := hl b (by simp)
    have h1 : (b + 256 * fromLeBytes bs) % 256 = b := by
      rw [Nat.add_mul_mod_self_left, Nat.mod_eq_of_lt hb]
    have h2 : (b + 256 * fromLeBytes bs) / 256 = fromLeBytes bs := by
      rw [Nat.add_mul_div_left _ _ (by norm_num), Nat.div_eq_of_lt hb, Nat.zero_add]
    simp only [List.length_cons, leBytes, fromLeBytes, h1, h2]
    rw [ih (fun c hc => hl c (by simp [hc]))]

/-- The mask-and-shift macro computes exactly the byte reversal of the 16-bit
little-endian decomposition. -/
theorem MZ_BSWAP16_bytes (x : Nat) :
    MZ_BSWAP16 x = fromLeBytes ((leBytes 2 x).reverse) := by
  rw [MZ_BSWAP16_eq]
  show _ = fromLeBytes [x / 256 % 256, x % 256]
  simp only [fromLeBytes]
  have h1 : x % 2 ^ 16 / 2 ^ 8 % 256 = x / 2 ^ 8 % 256 := by
    rw [show (2 : Nat) ^ 16 = 2 ^ 8 * 2 ^ 8 by norm_num, Nat.mod_mul_right_div_self]
    exact Nat.mod_mod_of_dvd _ (by norm_num)
  rw [h1]; norm_num; ring

theorem MZ_BSWAP32_bytes (x : Nat) :
    MZ_BSWAP32 x = fromLeBytes ((leBytes 4 x).reverse) := by
  rw [MZ_BSWAP32_eq]
  show _ = fromLeBytes [x / 256 / 256 / 256 % 256, x / 256 / 256 % 256, x / 256 % 256, x % 256]
  simp only [fromLeBytes]
  have e24 : x / 256 / 256 / 256 = x / 2 ^ 24 := by
    rw [Nat.div_div_eq_div_mul, Nat.div_div_eq_div_mul]; norm_num
  have e16 : x / 256 / 256 = x / 2 ^ 16 := by
    rw [Nat.div_div_eq_div_mul]; norm_num
  have h24 : x % 2 ^ 32 / 2 ^ 24 % 256 = x / 2 ^ 24 % 256 := by
    rw [show (2 : Nat) ^ 32 = 2 ^ 24 * 2 ^ 8 by norm_num, Nat.mod_mul_right_div_self]
    exact Nat.mod_mod_of_dvd _ (by norm_num)
  have h16 : x % 2 ^ 32 / 2 ^ 16 % 256 = x / 2 ^ 16 % 256 := by
    rw [show (2 : Nat) ^ 32 = 2 ^ 16 * 2 ^ 16 by norm_num, Nat.mod_mul_right_div_self]
    exact Nat.mod_mod_of_dvd _ (by norm_num)
  have h8 : x % 2 ^ 32 / 2 ^ 8 % 256 = x / 2 ^ 8 % 256 := by
    rw [show (2 : Nat) ^ 32 = 2 ^ 8 * 2 ^ 24 by norm_num, Nat.mod_mul_right_div_self]
    exact Nat.mod_mod_of_dvd _ (by norm_num)
  have h0 : x % 2 ^ 32 % 256 = x % 256 := Nat.mod_mod_of_dvd _ (by norm_num)
  rw [h24, h16, h8, h0, e24, e16]
  norm_num; ring

theorem MZ_BSWAP64_bytes (x : Nat) :
    MZ_BSWAP64 x = fromLeBytes ((leBytes 8 x).reverse) := by
  rw [MZ_BSWAP64_eq]
  show _ = fromLeBytes [x / 256 / 256 / 256 / 256 / 256 / 256 / 256 % 256,
    x / 256 / 256 / 256 / 256 / 256 / 256 % 256,
    x / 256 / 256 / 256 / 256 / 256 % 256,
    x / 256 / 256 / 256 / 256 % 256,
    x / 256 / 256 / 256 % 256, x / 256 / 256 % 256, x / 256 % 256, x % 256]
  simp only [fromLeBytes]
  have e16 : x / 256 / 256 = x / 2 ^ 16 := by
    rw [Nat.div_div_eq_div_mul]; norm_num
  have e24 : x / 2 ^ 16 / 256 = x / 2 ^ 24 := by
    rw [Nat.div_div_eq_div_mul]; norm_num
  have e32 : x / 2 ^ 24 / 256 = x / 2 ^ 32 := by
    rw [Nat.div_div_eq_div_mul]; norm_num
  have e40 : x / 2 ^ 32 / 256 = x / 2 ^ 40 := by
    rw [Nat.div_div_eq_div_mul]; norm_num
  have e48 : x / 2 ^ 40 / 256 = x / 2 ^ 48 := by
    rw [Nat.div_div_eq_div_mul]; norm_num
  have e56 : x / 2 ^ 48 / 256 = x / 2 ^ 56 := by
    rw [Nat.div_div_eq_div_mul]; norm_num
  have h56 : x % 2 ^ 64 / 2 ^ 56 % 256 = x / 2 ^ 56 % 256 := by
    rw [show (2 : Nat) ^ 64 = 2 ^ 56 * 2 ^ 8 by norm_num, Nat.mod_mul_right_div_self]
    exact Nat.mod_mod_of_dvd _ (by norm_num)
  have h48 : x % 2 ^ 64 / 2 ^ 48 % 256 = x / 2 ^ 48 % 256 := by
    rw [show (2 : Nat) ^ 64 = 2 ^ 48 * 2 ^ 16 by norm_num, Nat.mod_mul_right_div_self]
    exact Nat.mod_mod_of_dvd _ (by norm_num)
  have h40 : x % 2 ^ 64 / 2 ^ 40 % 256 = x / 2 ^ 40 % 256 := by
    rw [show (2 : Nat) ^ 64 = 2 ^ 40 * 2 ^ 24 by norm_num, Nat.mod_mul_right_div_self]
    exact Nat.mod_mod_of_dvd _ (by norm_num)
  have h32 : x % 2 ^ 64 / 2 ^ 32 % 256 = x / 2 ^ 32 % 256 := by
    rw [show (2 : Nat) ^ 64 = 2 ^ 32 * 2 ^ 32 by norm_num, Nat.mod_mul_right_div_self]
    exact Nat.mod_mod_of_dvd _ (by norm_num)
  have h24 : x % 2 ^ 64 / 2 ^ 24 % 256 = x / 2 ^ 24 % 256 := by
    rw [show (2 : Nat) ^ 64 = 2 ^ 24 * 2 ^ 40 by norm_num, Nat.mod_mul_right_div_self]
    exact Nat.mod_mod_of_dvd _ (by norm_num)
  have h16 : x % 2 ^ 64 / 2 ^ 16 % 256 = x / 2 ^ 16 % 256 := by
    rw [show (2 : Nat) ^ 64 = 2 ^ 16 * 2 ^ 48 by norm_num, Nat.mod_mul_right_div_self]
    exact Nat.mod_mod_of_dvd _ (by norm_num)
  have h8 : x % 2 ^ 64 / 2 ^ 8 % 256 = x / 2 ^ 8 % 256 := by
    rw [show (2 : Nat) ^ 64 = 2 ^ 8 * 2 ^ 56 by norm_num, Nat.mod_mul_right_div_self]
    exact Nat.mod_mod_of_dvd _ (by norm_num)
  have h0 : x % 2 ^ 64 % 256 = x % 256 := Nat.mod_mod_of_dvd _ (by norm_num)
  rw [h56, h48, h40, h32, h24, h16, h8, h0]
  simp only [e16, e24, e32, e40, e48, e56]
  norm_num; ring

/-- Any function of the shape fromLeBytes of the reversed byte decomposition
is an involution on w-byte values. -/
theorem revBytes_involutive (w x : Nat) (hx : x < 2 ^ (8 * w)) :
    fromLeBytes ((leBytes w (fromLeBytes ((leBytes w x).reverse))).reverse) = x := by
  have hlen : ((leBytes w x).reverse).length = w := by
    rw [List.length_reverse, leBytes_length]
  have hbound : ∀ b ∈ (leBytes w x).reverse, b < 256 := by
    intro b hb
    exact leBytes_entries_lt w x b (List.mem_reverse.mp hb)
  calc fromLeBytes ((leBytes w (fromLeBytes ((leBytes w x).reverse))).reverse)
      = fromLeBytes ((leBytes ((leBytes w x).reverse).length
          (fromLeBytes ((leBytes w x).reverse))).reverse) := by rw [hlen]
    _ = fromLeBytes ((leBytes w x).reverse.reverse) := by
          rw [leBytes_fromLeBytes _ hbound]
    _ = x := by rw [List.reverse_reverse, fromLeBytes_leBytes, Nat.mod_eq_of_lt hx]

theorem MZ_BSWAP16_involutive (x : Nat) (hx : x < 2 ^ 16) :
    MZ_BSWAP16 (MZ_BSWAP16 x) = x := by
  rw [MZ_BSWAP16_bytes, MZ_BSWAP16_bytes]
  exact revBytes_involutive 2 x hx

theorem MZ_BSWAP32_involutive (x : Nat) (hx : x < 2 ^ 32) :
    MZ_BSWAP32 (MZ_BSWAP32 x) = x := by
  rw [MZ_BSWAP32_bytes, MZ_BSWAP32_bytes]
  exact revBytes_involutive 4 x hx

theorem MZ_BSWAP64_involutive (x : Nat) (hx : x < 2 ^ 64) :
    MZ_BSWAP64 (MZ_BSWAP64 x) = x := by
  rw [MZ_BSWAP64_bytes, MZ_BSWAP64_bytes]
  exact revBytes_involutive 8 x hx

/-- byteSwap stays within the width of its argument type. -/
theorem byteSwap_lt (w x : Nat) (hx : x < 2 ^ (8 * w)) : byteSwap w x < 2 ^ (8 * w) := by
  unfold byteSwap
  split_ifs with h1 h2 h4 h8
  · exact hx
  · subst h2; exact MZ_BSWAP16_lt x
  · subst h4; exact MZ_BSWAP32_lt x
  · subst h8; exact MZ_BSWAP64_lt x
  · exact hx

/-- byteSwap is an involution on values of its width. -/
theorem byteSwap_involutive (w x : Nat) (hx : x < 2 ^ (8 * w)) :
    byteSwap w (byteSwap w x) = x := by
  unfold byteSwap
  split_ifs with h1 h2 h4 h8
  · rfl
  · subst h2; exact MZ_BSWAP16_involutive x hx
  · subst h4; exact MZ_BSWAP32_involutive x hx
  · subst h8; exact MZ_BSWAP64_involutive x hx
  · rfl

/- ### Byte-list lemmas for both native orders -/

theorem natBytes_length (native : Endian) (w x : Nat) : (natBytes native w x).length = w := by
  cases native <;> simp [natBytes, leBytes_length]

theorem fromNatBytes_natBytes (native : Endian) (w x : Nat) :
    fromNatBytes native (natBytes native w x) = x % 2 ^ (8 * w) := by
  cases native <;> simp [natBytes, fromNatBytes, fromLeBytes_leBytes]

theorem fromNatBytes_natBytes_of_lt (native : Endian) (w x : Nat) (hx : x < 2 ^ (8 * w)) :
    fromNatBytes native (natBytes native w x) = x := by
  rw [fromNatBytes_natBytes, Nat.mod_eq_of_lt hx]

theorem natBytes_mod (native : Endian) (w x : Nat) :
    natBytes native w (x % 2 ^ (8 * w)) = natBytes native w x := by
  suffices h : leBytes w (x % 2 ^ (8 * w)) = leBytes w x by
    cases native <;> simp [natBytes, h]
  induction w generalizing x with
  | zero => rfl
  | succ n ih =>
    have hpow : (2 : Nat) ^ (8 * (n + 1)) = 256 * 2 ^ (8 * n) := by
      rw [show 8 * (n + 1) = 8 + 8 * n by ring, pow_add]; norm_num
    have h1 : x % 2 ^ (8 * (n + 1)) % 256 = x % 256 := by
      rw [hpow]; exact Nat.mod_mod_of_dvd x ⟨2 ^ (8 * n), by ring⟩
    have h2 : x % 2 ^ (8 * (n + 1)) / 256 = x / 256 % 2 ^ (8 * n) := by
      rw [hpow, Nat.mod_mul_right_div_self]
    rw [leBytes, leBytes, h1, h2, ih]

/- ### The basicCopy primitives of EndianConcepts.h -/

/-- basicCopy (value to memory): memcpy the native bytes of the value, then,
when the native order differs from the requested encoding, byteSwap the value
stored at the destination in place. -/
def basicCopyWrite (native enc : Endian) (w x : Nat) : List Nat :=
  let bytes := natBytes native w x
  if native ≠ enc then
    natBytes native w (byteSwap w (fromNatBytes native bytes))
  else bytes

/-- basicCopy (memory to value): memcpy sizeof(T) bytes into the value, then,
when the native order differs from the requested encoding, byteSwap the
value. -/
def basicCopyRead (native enc : Endian) (w : Nat) (src : List Nat) : Nat :=
  let v := fromNatBytes native (src.take w)
  if native ≠ enc then byteSwap w v else v

theorem basicCopyWrite_length (native enc : Endian) (w x : Nat) :
    (basicCopyWrite native enc w x).length = w := by
  unfold basicCopyWrite
  split_ifs <;> simp [natBytes_length]

/-- Writing a value with basicCopy and reading it back with basicCopy is the
identity on values of the given width. -/
theorem basicCopyRead_basicCopyWrite (native enc : Endian) (w x : Nat)
    (hx : x < 2 ^ (8 * w)) :
    basicCopyRead native enc w (basicCopyWrite native enc w x) = x := by
  unfold basicCopyRead basicCopyWrite
  by_cases h : native = enc
  · simp only [h, ne_eq, not_true_eq_false, if_false, ite_false]
    rw [List.take_of_length_le (by rw [natBytes_length]),
      fromNatBytes_natBytes_of_lt _ _ _ hx]
  · simp only [ne_eq, h, not_false_eq_true, if_true, ite_true]
    rw [fromNatBytes_natBytes_of_lt _ _ _ hx,
      List.take_of_length_le (by rw [natBytes_length]),
      fromNatBytes_natBytes_of_lt _ _ _ (byteSwap_lt w x hx),
      byteSwap_involutive w x hx]

/- ### The span basicCopy primitives of EndianConcepts.h -/

/-- Successive sizeof(T)-byte blocks of memory interpreted as values in
native order: the memcpy half of the span basicCopy operations. -/
def chunkVals (native : Endian) (w : Nat) : Nat → List Nat → List Nat
  | 0, _ => []
  | n + 1, src => fromNatBytes native (src.take w) :: chunkVals native w n (src.drop w)

/-- basicCopy (span to memory) of EndianConcepts.h: memcpy the whole span in
one operation, then byteSwap each stored element in place when the native
order differs from the encoding and sizeof(T) > 1. -/
def basicCopyWriteSpan (native enc : Endian) (w : Nat) (xs : List Nat) : List Nat :=
  let bytes := (xs.map (natBytes native w)).flatten
  if native ≠ enc ∧ 1 < w then
    ((chunkVals native w xs.length bytes).map
      (fun v => natBytes native w (byteSwap w v))).flatten
  else bytes

/-- basicCopy (memory to span) of EndianConcepts.h: memcpy the whole span,
then byteSwap each element when the native order differs from the encoding
and sizeof(T) > 1. -/
def basicCopyReadSpan (native enc : Endian) (w n : Nat) (src : List Nat) : List Nat :=
  let vals := chunkVals native w n src
  if native ≠ enc ∧ 1 < w then vals.map (byteSwap w) else vals

theorem chunkVals_blocks (native : Endian) (w : Nat) (f : Nat → List Nat)
    (hf : ∀ x, (f x).length = w) (xs : List Nat) (rest : List Nat) :
    chunkVals native w xs.length ((xs.map f).flatten ++ rest)
      = xs.map (fun x => fromNatBytes native (f x)) := by
  induction xs with
  | nil => rfl
  | cons x xs ih =>
    simp only [List.map_cons, List.flatten_cons, List.length_cons, chunkVals]
    rw [List.append_assoc, List.take_left' (hf x), List.drop_left' (hf x), ih]

theorem chunkVals_blocks_exact (native : Endian) (w : Nat) (f : Nat → List Nat)
    (hf : ∀ x, (f x).length = w) (xs : List Nat) :
    chunkVals native w xs.length (xs.map f).flatten
      = xs.map (fun x => fromNatBytes native (f x)) := by
  have h := chunkVals_blocks native w f hf xs []
  rwa [List.append_nil] at h

/-- The one-shot memcpy plus in-place swap loop of the span write equals the
per-element basicCopy write. -/
theorem basicCopyWriteSpan_eq (native enc : Endian) (w : Nat) (xs : List Nat) :
    basicCopyWriteSpan native enc w xs
      = (xs.map (basicCopyWrite native enc w)).flatten := by
  unfold basicCopyWriteSpan
  by_cases h : native ≠ enc ∧ 1 < w
  · rw [if_pos h]
    rw [chunkVals_blocks_exact native w _ (fun x => natBytes_length native w x) xs]
    rw [List.map_map]
    congr 1
    apply List.map_congr_left
    intro a _
    simp only [Function.comp]
    unfold basicCopyWrite
    rw [if_pos h.1]
  · rw [if_neg h]
    congr 1
    apply List.map_congr_left
    intro a _
    unfold basicCopyWrite
    by_cases hne : native = enc
    · simp [hne]
    · rw [if_pos hne]
      have hw : ¬ 1 < w := fun hlt => h ⟨hne, hlt⟩
      have hw1 : w = 0 ∨ w = 1 := by omega
      rcases hw1 with h0 | h1
      · subst h0; cases native <;> rfl
      · subst h1
        rw [fromNatBytes_natBytes]
        rw [show byteSwap 1 (a % 2 ^ (8 * 1)) = a % 2 ^ (8 * 1) by simp [byteSwap]]
        rw [natBytes_mod]

theorem basicCopyWriteSpan_length (native enc : Endian) (w : Nat) (xs : List Nat) :
    (basicCopyWriteSpan native enc w xs).length = w * xs.length := by
  rw [basicCopyWriteSpan_eq]
  induction xs with
  | nil => simp
  | cons x xs ih =>
    simp only [List.map_cons, List.flatten_cons, List.length_append,
      basicCopyWrite_length, List.length_cons, ih]
    ring

/-- Reading one element back from the bytes the span write produced for it
recovers the element, in every branch combination. -/
theorem readElemVal (native enc : Endian) (w a : Nat) (ha : a < 2 ^ (8 * w)) :
    (if native ≠ enc ∧ 1 < w then
      byteSwap w (fromNatBytes native (basicCopyWrite native enc w a))
     else fromNatBytes native (basicCopyWrite native enc w a)) = a := by
  have hr := basicCopyRead_basicCopyWrite native enc w a ha
  unfold basicCopyRead at hr
  rw [List.take_of_length_le (le_of_eq (basicCopyWrite_length native enc w a))] at hr
  by_cases h : native ≠ enc ∧ 1 < w
  · rw [if_pos h]
    rw [if_pos h.1] at hr
    exact hr
  · rw [if_neg h]
    by_cases hne : native = enc
    · rw [if_neg (not_not_intro hne)] at hr
      exact hr
    · have hw : ¬ 1 < w := fun hlt => h ⟨hne, hlt⟩
      have hw1 : w = 0 ∨ w = 1 := by omega
      rcases hw1 with h0 | h1
      · subst h0
        have ha0 : a = 0 := by simpa using ha
        subst ha0
        unfold basicCopyWrite
        rw [if_pos hne]
        cases native <;> rfl
      · subst h1
        rw [if_pos hne] at hr
        simp only [byteSwap, if_true, ite_true] at hr
        exact hr

/-- Round trip of the span basicCopy primitives: writing a span and reading
the produced bytes (followed by arbitrary trailing memory) recovers the
span. -/
theorem basicCopyReadSpan_roundtrip (native enc : Endian) (w : Nat) (xs rest : List Nat)
    (hxs : ∀ x ∈ xs, x < 2 ^ (8 * w)) :
    basicCopyReadSpan native enc w xs.length (basicCopyWriteSpan native enc w xs ++ rest)
      = xs := by
  rw [basicCopyWriteSpan_eq]
  unfold basicCopyReadSpan
  rw [chunkVals_blocks native w _ (fun x => basicCopyWrite_length native enc w x) xs rest]
  by_cases h : native ≠ enc ∧ 1 < w
  · rw [if_pos h, List.map_map]
    have hcongr : ∀ a ∈ xs,
        (byteSwap w ∘ fun x => fromNatBytes native (basicCopyWrite native enc w x)) a
          = id a := by
      intro a ha
      have hv := readElemVal native enc w a (hxs a ha)
      rw [if_pos h] at hv
      simpa using hv
    rw [List.map_congr_left hcongr, List.map_id]
  · rw [if_neg h]
    have hcongr : ∀ a ∈ xs,
        (fun x => fromNatBytes native (basicCopyWrite native enc w x)) a = id a := by
      intro a ha
      have hv := readElemVal native enc w a (hxs a ha)
      rw [if_neg h] at hv
      simpa using hv
    rw [List.map_congr_left hcongr, List.map_id]

/- ### BasicWriteBuffer and BasicReadBuffer of EndianBasicBuffers.h -/

/-- Overwriting a region of memory starting at a given offset (the effect of
the memcpy inside basicCopy on the backing bytes). -/
def writeAt (mem : List Nat) (off : Nat) (bs : List Nat) : List Nat :=
  mem.take off ++ bs ++ mem.drop (off + bs.length)

/-- BasicWriteBuffer: the backing bytes together with the m_begin and m_end
pointers, represented as offsets from the start of the byte list. -/
structure WBuf where
  mem : List Nat
  b : Nat
  e : Nat
deriving DecidableEq, Repr

/-- size(): number of bytes available for writing. -/
def WBuf.size (s : WBuf) : Nat := s.e - s.b

/-- empty(): the write cursor has reached the end. -/
def WBuf.wempty (s : WBuf) : Bool := s.b == s.e

/-- unsafePushBack(T): basicCopy the value at m_begin and advance m_begin by
sizeof(T); no bounds check. -/
def WBuf.unsafePushBack (native enc : Endian) (w x : Nat) (s : WBuf) : WBuf :=
  { s with mem := writeAt s.mem s.b (basicCopyWrite native enc w x), b := s.b + w }

/-- pushBack(T): write only if m_begin + sizeof(T) <= m_end; returns true on
failure (buffer full), false on success. -/
def WBuf.pushBack (native enc : Endian) (w x : Nat) (s : WBuf) : Bool × WBuf :=
  if s.b + w ≤ s.e then (false, s.unsafePushBack native enc w x)
  else (true, s)

/-- unsafePushBack(span): basicCopy the span at m_begin and advance m_begin
by sizeof(T) * span.size(). -/
def WBuf.unsafePushBackSpan (native enc : Endian) (w : Nat) (xs : List Nat) (s : WBuf) :
    WBuf :=
  { s with mem := writeAt s.mem s.b (basicCopyWriteSpan native enc w xs),
           b := s.b + w * xs.length }

/-- pushBack(span): write only if m_begin + sizeof(T) * span.size() <= m_end. -/
def WBuf.pushBackSpan (native enc : Endian) (w : Nat) (xs : List Nat) (s : WBuf) :
    Bool × WBuf :=
  if s.b + w * xs.length ≤ s.e then (false, s.unsafePushBackSpan native enc w xs)
  else (true, s)

/-- calculateSerializedSize(std::string): size prefix (4) + content + size
suffix (4). -/
def calculateSerializedSize (str : List Nat) : Nat := str.length + 8

/-- unsafePushBack(std::string): u32 size prefix, content bytes as a span of
char (one byte each), u32 size suffix.  The uint32_t cast of str.size() is
reduction modulo 2^32. -/
def WBuf.unsafePushBackString (native enc : Endian) (str : List Nat) (s : WBuf) : WBuf :=
  let size := str.length % 2 ^ 32
  ((s.unsafePushBack native enc 4 size).unsafePushBackSpan native enc 1 str).unsafePushBack
    native enc 4 size

/-- pushBack(std::string): write only if the full serialized size fits. -/
def WBuf.pushBackString (native enc : Endian) (str : List Nat) (s : WBuf) : Bool × WBuf :=
  if s.b + calculateSerializedSize str ≤ s.e then
    (false, s.unsafePushBackString native enc str)
  else (true, s)

/-- calculateSerializedSize(std::wstring): the source hardcodes
wstr.size() * 2 + 8 (the comment describes char16_t content), independent of
the actual sizeof(wchar_t). -/
def calculateSerializedSizeW (wstr : List Nat) : Nat := wstr.length * 2 + 8

/-- unsafePushBack(std::wstring): u32 size prefix, content as a span of
wchar_t (wcs = sizeof(wchar_t) bytes per character, platform defined), u32
size suffix. -/
def WBuf.unsafePushBackWString (wcs : Nat) (native enc : Endian) (wstr : List Nat)
    (s : WBuf) : WBuf :=
  let size := wstr.length % 2 ^ 32
  ((s.unsafePushBack native enc 4 size).unsafePushBackSpan native enc wcs wstr).unsafePushBack
    native enc 4 size

/-- pushBack(std::wstring): write only if calculateSerializedSize(wstr) fits. -/
def WBuf.pushBackWString (wcs : Nat) (native enc : Endian) (wstr : List Nat) (s : WBuf) :
    Bool × WBuf :=
  if s.b + calculateSerializedSizeW wstr ≤ s.e then
    (false, s.unsafePushBackWString wcs native enc wstr)
  else (true, s)

/-- BasicReadBuffer: the readable bytes together with the m_begin and m_end
offsets; m_end also acts as the retreating back cursor. -/
structure RBuf where
  mem : List Nat
  b : Nat
  e : Nat
deriving DecidableEq, Repr

/-- size(): number of bytes available for reading. -/
def RBuf.size (s : RBuf) : Nat := s.e - s.b

/-- empty(): no more data between the cursors. -/
def RBuf.rempty (s : RBuf) : Bool := s.b == s.e

/-- unsafePopFront(T&): basicCopy from m_begin into the value, advance
m_begin by sizeof(T). -/
def RBuf.unsafePopFront (native enc : Endian) (w : Nat) (s : RBuf) : Nat × RBuf :=
  (basicCopyRead native enc w (s.mem.drop s.b), { s with b := s.b + w })

/-- popFront(T&): read only if m_begin + sizeof(T) <= m_end; on failure the
destination value v is left untouched and the state unchanged. -/
def RBuf.popFront (native enc : Endian) (w v : Nat) (s : RBuf) : Bool × Nat × RBuf :=
  if s.b + w ≤ s.e then
    let r := s.unsafePopFront native enc w
    (false, r.1, r.2)
  else (true, v, s)

/-- unsafePopBack(T&): retreat m_end by sizeof(T) and basicCopy from the new
end position. -/
def RBuf.unsafePopBack (native enc : Endian) (w : Nat) (s : RBuf) : Nat × RBuf :=
  (basicCopyRead native enc w (s.mem.drop (s.e - w)), { s with e := s.e - w })

/-- popBack(T&): read only if m_begin + sizeof(T) <= m_end. -/
def RBuf.popBack (native enc : Endian) (w v : Nat) (s : RBuf) : Bool × Nat × RBuf :=
  if s.b + w ≤ s.e then
    let r := s.unsafePopBack native enc w
    (false, r.1, r.2)
  else (true, v, s)

/-- unsafePopFront(span): basicCopy n elements from m_begin, advance m_begin
by sizeof(T) * n. -/
def RBuf.unsafePopFrontSpan (native enc : Endian) (w n : Nat) (s : RBuf) : List Nat × RBuf :=
  (basicCopyReadSpan native enc w n (s.mem.drop s.b), { s with b := s.b + w * n })

/-- popFront(span): read only if m_begin + sizeof(T) * span.size() <= m_end;
on failure the destination span is left untouched. -/
def RBuf.popFrontSpan (native enc : Endian) (w : Nat) (dest : List Nat) (s : RBuf) :
    Bool × List Nat × RBuf :=
  if s.b + w * dest.length ≤ s.e then
    let r := s.unsafePopFrontSpan native enc w dest.length
    (false, r.1, r.2)
  else (true, dest, s)

/-- unsafePopBack(span): retreat m_end by sizeof(T) * n and basicCopy from
the new end position. -/
def RBuf.unsafePopBackSpan (native enc : Endian) (w n : Nat) (s : RBuf) : List Nat × RBuf :=
  (basicCopyReadSpan native enc w n (s.mem.drop (s.e - w * n)), { s with e := s.e - w * n })

/-- popFront(std::string&): save m_begin; check 8 bytes for the two length
fields; read the u32 size prefix; check size + 4 more bytes; read size
content bytes (str.resize(size) followed by the full overwrite makes the
destination exactly the content); read the u32 size suffix; compare.  On any
failure clear the string and restore m_begin. -/
def RBuf.popFrontString (native enc : Endian) (str : List Nat) (s : RBuf) :
    Bool × List Nat × RBuf :=
  let oldBegin := s.b
  if s.b + 8 ≤ s.e then
    let r1 := s.unsafePopFront native enc 4
    let size := r1.1
    let s1 := r1.2
    if s1.b + size + 4 ≤ s1.e then
      let r2 := s1.unsafePopFrontSpan native enc 1 size
      let content := r2.1
      let s2 := r2.2
      let r3 := s2.unsafePopFront native enc 4
      let sizeCheck := r3.1
      let s3 := r3.2
      if size = sizeCheck then (false, content, s3)
      else (true, [], { s3 with b := oldBegin })
    else (true, [], { s1 with b := oldBegin })
  else (true, [], { s with b := oldBegin })

/-- popBack(std::string&): the mirrored decode from the back: save m_end;
read the size suffix from the back; check size + 4 more bytes; read the
content from the back; read the size prefix; compare.  On any failure clear
the string and restore m_end. -/
def RBuf.popBackString (native enc : Endian) (str : List Nat) (s : RBuf) :
    Bool × List Nat × RBuf :=
  let oldEnd := s.e
  if s.b + 8 ≤ s.e then
    let r1 := s.unsafePopBack native enc 4
    let size := r1.1
    let s1 := r1.2
    if s1.b + size + 4 ≤ s1.e then
      let r2 := s1.unsafePopBackSpan native enc 1 size
      let content := r2.1
      let s2 := r2.2
      let r3 := s2.unsafePopBack native enc 4
      let sizeCheck := r3.1
      let s3 := r3.2
      if size = sizeCheck then (false, content, s3)
      else (true, [], { s3 with e := oldEnd })
    else (true, [], { s1 with e := oldEnd })
  else (true, [], { s with e := oldEnd })

/- ### BasicVector of EndianBasicVector.h and Vector of EndianVector.h -/

/-- BasicVector: the logical size m_size plus the underlying
std::vector<uint8_t> m_data (whose length is the data size; its capacity
only affects reallocation counts, not observable content). -/
structure BVec where
  msize : Nat
  mdata : List Nat
deriving DecidableEq, Repr

/-- size(): the logical size. -/
def BVec.size (v : BVec) : Nat := v.msize

/-- reserveExtra: grow m_data to m_size + extraSize if it is smaller; the
extra reserve taken when extraSize > 1024 changes only the capacity, and
resize extends the data with zero bytes. -/
def BVec.reserveExtra (extraSize : Nat) (v : BVec) : BVec :=
  let requiredSize := v.msize + extraSize
  if v.mdata.length < requiredSize then
    { v with mdata := v.mdata ++ List.replicate (requiredSize - v.mdata.length) 0 }
  else v

/-- unsafePushBack(T): basicCopy the value at data() + size() and grow the
logical size by sizeof(T). -/
def BVec.unsafePushBack (native enc : Endian) (w x : Nat) (v : BVec) : BVec :=
  { v with mdata := writeAt v.mdata v.msize (basicCopyWrite native enc w x),
           msize := v.msize + w }

/-- pushBack(T): reserveExtra(sizeof(T)) then unsafePushBack. -/
def BVec.pushBack (native enc : Endian) (w x : Nat) (v : BVec) : BVec :=
  (v.reserveExtra w).unsafePushBack native enc w x

/-- shrinkBy: reduce the logical size by the given amount, clamped to the
current size; returns the amount actually removed. -/
def BVec.shrinkBy (length : Nat) (v : BVec) : Nat × BVec :=
  let actualLength := if length < v.msize then length else v.msize
  (actualLength, { v with msize := v.msize - actualLength })

/-- error() of Vector (EndianVector.h): compares
BasicVector<stream_endian>::size() with size(); Vector does not override
size(), so both calls resolve to the same inherited m_size. -/
def Vector.error (v : BVec) : Nat :=
  if BVec.size v < BVec.size v then 1 else 0

/- ### ByteArray of EndianByteArray.h -/

/-- FNV-1a 64-bit prime. -/
def HashPrime : Nat := 1099511628211

/-- FNV-1a 64-bit initial value. -/
def HashInit : Nat := 14695981039346656037

/-- computeNextHash: one FNV-1a step on uint64_t, xor then multiply with
64-bit wraparound. -/
def computeNextHash (currentHash nextByte : Nat) : Nat :=
  ((currentHash ^^^ nextByte) * HashPrime) % 2 ^ 64

/-- computeHash: FNV-1a over the bytes at indices [0, maxIndex).  The source
unrolls the loop eight steps at a time for larger arrays; the chained hash
it computes is this same left fold. -/
def computeHash (arr : List Nat) (initialHash maxIndex : Nat) : Nat :=
  (arr.take maxIndex).foldl computeNextHash initialHash

/-- The copy loop of fillHead(const std::string&): for each character, skip
it if zero, otherwise store it at the next index and stop as soon as the
index reaches N. -/
def fillHeadLoop (N : Nat) : List Nat → Nat → List Nat → List Nat × Nat
  | arr, idx, [] => (arr, idx)
  | arr, idx, c :: cs =>
    if c ≠ 0 then
      let arr1 := arr.set idx c
      if idx + 1 = N then (arr1, idx + 1)
      else fillHeadLoop N arr1 (idx + 1) cs
    else fillHeadLoop N arr idx cs

/-- fillHead(const std::string&): when the string fits, loop over all of it;
otherwise loop over only its first N characters (the for loop over
i < N). -/
def ByteArray.fillHead (N : Nat) (arr : List Nat) (str : List Nat) : List Nat × Nat :=
  if str.length ≤ N then fillHeadLoop N arr 0 str
  else fillHeadLoop N arr 0 (str.take N)

/-- The body of the padding loop of fillTail, with the number of remaining
iterations (N minus the current index, which the loop decreases by one per
step) made explicit so that the recursion is structural: while
filledBytes < N, feed the byte at index filledBytes % N (the position about
to be written) into the hash and store the low byte of the updated hash
there. -/
def fillTailGo (N : Nat) : Nat → List Nat → Nat → Nat → List Nat × Nat
  | 0, arr, _, h => (arr, h)
  | fuel + 1, arr, f, h =>
    if f < N then
      let h1 := computeNextHash h (arr.getD (f % N) 0)
      fillTailGo N fuel (arr.set f (h1 % 256)) (f + 1) h1
    else (arr, h)

/-- The padding loop of fillTail: runs until filledBytes reaches N. -/
def fillTailLoop (N : Nat) (arr : List Nat) (f h : Nat) : List Nat × Nat :=
  fillTailGo N (N - f) arr f h

/-- fillTail: clear everything when nothing was copied; otherwise hash the
copied prefix, write a zero terminator when there is room, and run the
padding loop. -/
def ByteArray.fillTail (N : Nat) (arr : List Nat) (filledBytes : Nat) : List Nat × Nat :=
  if filledBytes = 0 then (List.replicate N 0, 0)
  else
    let h0 := computeHash arr HashInit filledBytes
    if filledBytes < N then fillTailLoop N (arr.set filledBytes 0) (filledBytes + 1) h0
    else fillTailLoop N arr filledBytes h0

/-- fill(const std::string&): memset the array to zero, fillHead, then
fillTail on the number of copied bytes. -/
def ByteArray.fill (N : Nat) (str : List Nat) : List Nat × Nat :=
  let r := ByteArray.fillHead N (List.replicate N 0) str
  ByteArray.fillTail N r.1 r.2

/- ### Helper lemmas about writeAt -/

theorem writeAt_exact (mem bs : List Nat) (h : mem.length = bs.length) :
    writeAt mem 0 bs = bs := by
  unfold writeAt
  rw [List.take_zero, Nat.zero_add, List.drop_eq_nil_of_le (le_of_eq h),
    List.nil_append, List.append_nil]

/- ### Claim theorems -/

/-- C10: for every Vector state the error() query returns 0: its check
compares the inherited logical size with itself, so the inconsistent-state
condition it documents is never reported. -/
theorem claim_C10_vector_error_zero (v : BVec) : Vector.error v = 0 := by
  unfold Vector.error
  simp

/-- C10 witness: error() at a concrete state. -/
theorem claim_C10_witness : Vector.error { msize := 5, mdata := [1, 2, 3] } = 0 :=
  claim_C10_vector_error_zero { msize := 5, mdata := [1, 2, 3] }

/-- C6: for every supported width w in {1, 2, 4, 8} bytes and every integral
or enum value of that width, byteSwap (byteSwap x) = x, and for w = 1
byteSwap is the identity. -/
theorem claim_C6_byteSwap_involutive (w x : Nat)
    (hw : w = 1 ∨ w = 2 ∨ w = 4 ∨ w = 8) (hx : x < 2 ^ (8 * w)) :
    byteSwap w (byteSwap w x) = x ∧ byteSwapEnum w (byteSwapEnum w x) = x ∧
      (w = 1 → byteSwap w x = x ∧ byteSwapEnum w x = x) := by
  refine ⟨byteSwap_involutive w x hx, ?_, ?_⟩
  · unfold byteSwapEnum
    by_cases h1 : w = 1
    · simp [h1]
    · rw [if_neg h1, if_neg h1]
      exact byteSwap_involutive w x hx
  · intro h1
    subst h1
    exact ⟨by simp [byteSwap], by simp [byteSwapEnum]⟩

/-- C6 witness: the 4-byte involution at a concrete value. -/
theorem claim_C6_witness : byteSwap 4 (byteSwap 4 3735928559) = 3735928559 :=
  (claim_C6_byteSwap_involutive 4 3735928559 (by norm_num) (by norm_num)).1

/-- C2: encoding the string hello with the write buffer string pushBack
(little-endian stream order, on either native order) produces exactly the 13
bytes 05 00 00 00, h e l l o, 05 00 00 00, and decoding those 13 bytes with
the read buffer string popFront succeeds, yields hello, and advances the
front cursor to exactly 13. -/
theorem claim_C2_hello_framing :
    (WBuf.pushBackString .little .little [104, 101, 108, 108, 111]
        { mem := List.replicate 13 0, b := 0, e := 13 }
      = (false, { mem := [5, 0, 0, 0, 104, 101, 108, 108, 111, 5, 0, 0, 0],
                  b := 13, e := 13 })) ∧
    (WBuf.pushBackString .big .little [104, 101, 108, 108, 111]
        { mem := List.replicate 13 0, b := 0, e := 13 }
      = (false, { mem := [5, 0, 0, 0, 104, 101, 108, 108, 111, 5, 0, 0, 0],
                  b := 13, e := 13 })) ∧
    (RBuf.popFrontString .little .little []
        { mem := [5, 0, 0, 0, 104, 101, 108, 108, 111, 5, 0, 0, 0], b := 0, e := 13 }
      = (false, [104, 101, 108, 108, 111],
          { mem := [5, 0, 0, 0, 104, 101, 108, 108, 111, 5, 0, 0, 0], b := 13, e := 13 })) ∧
    (RBuf.popFrontString .big .little []
        { mem := [5, 0, 0, 0, 104, 101, 108, 108, 111, 5, 0, 0, 0], b := 0, e := 13 }
      = (false, [104, 101, 108, 108, 111],
          { mem := [5, 0, 0, 0, 104, 101, 108, 108, 111, 5, 0, 0, 0], b := 13, e := 13 })) := by
  decide

/-- C4: the safe pushBack of a single value fails (returns true) and leaves
the buffer unchanged when the remaining space is strictly less than
sizeof(T); with at least sizeof(T) remaining it behaves as the unsafe write
and returns false; a 4-byte value fails against exactly 3 remaining bytes
and succeeds against exactly 4, leaving the buffer empty; and the safe
popFront of a single value mirrors this against remaining data. -/
theorem claim_C4_safe_boundary :
    (∀ (native enc : Endian) (w x : Nat) (s : WBuf), s.b ≤ s.e →
      (s.e - s.b < w → WBuf.pushBack native enc w x s = (true, s)) ∧
      (w ≤ s.e - s.b →
        WBuf.pushBack native enc w x s = (false, WBuf.unsafePushBack native enc w x s) ∧
        (WBuf.pushBack native enc w x s).2.b = s.b + w)) ∧
    (∀ (native enc : Endian) (x : Nat), x < 2 ^ 32 →
      WBuf.pushBack native enc 4 x { mem := [0, 0, 0], b := 0, e := 3 }
        = (true, { mem := [0, 0, 0], b := 0, e := 3 }) ∧
      (WBuf.pushBack native enc 4 x { mem := [0, 0, 0, 0], b := 0, e := 4 }).1 = false ∧
      (WBuf.pushBack native enc 4 x { mem := [0, 0, 0, 0], b := 0, e := 4 }).2.wempty = true) ∧
    (∀ (native enc : Endian) (w v : Nat) (s : RBuf), s.b ≤ s.e →
      (s.e - s.b < w → RBuf.popFront native enc w v s = (true, v, s)) ∧
      (w ≤ s.e - s.b →
        RBuf.popFront native enc w v s
          = (false, (RBuf.unsafePopFront native enc w s).1,
              (RBuf.unsafePopFront native enc w s).2))) := by
  refine ⟨?_, ?_, ?_⟩
  · intro native enc w x s hbe
    constructor
    · intro hlt
      unfold WBuf.pushBack
      rw [if_neg (by omega)]
    · intro hge
      unfold WBuf.pushBack
      rw [if_pos (by omega)]
      exact ⟨rfl, rfl⟩
  · intro native enc x _
    exact ⟨rfl, rfl, rfl⟩
  · intro native enc w v s hbe
    constructor
    · intro hlt
      unfold RBuf.popFront
      rw [if_neg (by omega)]
    · intro hge
      unfold RBuf.popFront
      rw [if_pos (by omega)]

/-- C4 witness: the boundary cases at concrete inputs. -/
theorem claim_C4_witness :
    WBuf.pushBack .little .little 4 7 { mem := [0, 0, 0], b := 0, e := 3 }
      = (true, { mem := [0, 0, 0], b := 0, e := 3 }) ∧
    RBuf.popFront .little .little 4 9 { mem := [0, 0], b := 0, e := 2 }
      = (true, 9, { mem := [0, 0], b := 0, e := 2 }) :=
  ⟨(claim_C4_safe_boundary.1 .little .little 4 7
      { mem := [0, 0, 0], b := 0, e := 3 } (by decide)).1 (by decide),
   (claim_C4_safe_boundary.2.2 .little .little 4 9
      { mem := [0, 0], b := 0, e := 2 } (by decide)).1 (by decide)⟩

/-- C3: if the framed-string decode (popFront or popBack of a string) fails
for any reason, it returns the failure flag, leaves the destination string
empty, and restores the moved cursor to its exact pre-call value, so the
whole buffer state is unchanged. -/
theorem claim_C3_string_decode_rollback (native enc : Endian) (str : List Nat) (s : RBuf) :
    ((RBuf.popFrontString native enc str s).1 = true →
      (RBuf.popFrontString native enc str s).2.1 = [] ∧
      (RBuf.popFrontString native enc str s).2.2 = s) ∧
    ((RBuf.popBackString native enc str s).1 = true →
      (RBuf.popBackString native enc str s).2.1 = [] ∧
      (RBuf.popBackString native enc str s).2.2 = s) := by
  constructor
  · simp only [RBuf.popFrontString, RBuf.unsafePopFront, RBuf.unsafePopFrontSpan]
    split_ifs <;> simp
  · simp only [RBuf.popBackString, RBuf.unsafePopBack, RBuf.unsafePopBackSpan]
    split_ifs <;> simp

/-- C3 witness: the 13-byte encoding of hello with the trailing length field
corrupted to 06 00 00 00 fails, clears the destination and leaves the state
unchanged. -/
theorem claim_C3_witness :
    (RBuf.popFrontString .little .little []
       { mem := [5, 0, 0, 0, 104, 101, 108, 108, 111, 6, 0, 0, 0], b := 0, e := 13 }).1
        = true ∧
    (RBuf.popFrontString .little .little []
       { mem := [5, 0, 0, 0, 104, 101, 108, 108, 111, 6, 0, 0, 0], b := 0, e := 13 }).2.1
        = [] ∧
    (RBuf.popFrontString .little .little []
       { mem := [5, 0, 0, 0, 104, 101, 108, 108, 111, 6, 0, 0, 0], b := 0, e := 13 }).2.2
        = { mem := [5, 0, 0, 0, 104, 101, 108, 108, 111, 6, 0, 0, 0], b := 0, e := 13 } :=
  have h := (claim_C3_string_decode_rollback .little .little []
      { mem := [5, 0, 0, 0, 104, 101, 108, 108, 111, 6, 0, 0, 0], b := 0, e := 13 }).1
      (by decide)
  ⟨by decide, h.1, h.2⟩

/-- C5 (evaluation at the failing input): with sizeof(wchar_t) = 4 and a
one-character wide string, the wire format occupies 8 + 4 = 12 bytes, yet
calculateSerializedSize reports only 10, so the safe pushBack against a
10-byte buffer succeeds, writes 12 bytes and advances the cursor to offset
12, two bytes past the end of the buffer — the up-front size check does not
equal the number of bytes the unsafe write consumes. -/
theorem claim_C5_wide_check_mismatch :
    calculateSerializedSizeW [65] = 10 ∧
    8 + 1 * 4 = 12 ∧
    (WBuf.pushBackWString 4 .little .little [65]
        { mem := List.replicate 10 0, b := 0, e := 10 }).1 = false ∧
    (WBuf.pushBackWString 4 .little .little [65]
        { mem := List.replicate 10 0, b := 0, e := 10 }).2.b = 12 ∧
    (WBuf.pushBackWString 4 .little .little [65]
        { mem := List.replicate 10 0, b := 0, e := 10 }).2.mem.length = 12 := by
  decide

/- ### List helpers for the ByteArray proofs -/

theorem set_eq_take_cons_drop (l : List Nat) (i a : Nat) (h : i < l.length) :
    l.set i a = l.take i ++ a :: l.drop (i + 1) := by
  induction l generalizing i with
  | nil => simp at h
  | cons c tl ih =>
    cases i with
    | zero => simp
    | succ n =>
      simp only [List.set_cons_succ, List.take_succ_cons, List.drop_succ_cons,
        List.cons_append, List.cons.injEq, true_and]
      exact ih n (by simpa using h)

theorem take_succ_set (l : List Nat) (i a : Nat) (h : i < l.length) :
    (l.set i a).take (i + 1) = l.take i ++ [a] := by
  induction l generalizing i with
  | nil => simp at h
  | cons c tl ih =>
    cases i with
    | zero => simp
    | succ n =>
      simp only [List.set_cons_succ, List.take_succ_cons, List.cons_append,
        List.cons.injEq, true_and]
      exact ih n (by simpa using h)

theorem getD_set_ne (l : List Nat) (i j a : Nat) (h : i ≠ j) :
    (l.set i a).getD j 0 = l.getD j 0 := by
  simp [List.getD_eq_getElem?_getD, List.getElem?_set_ne h]

/-- When every remaining character is nonzero and exactly fills the array,
the copy loop writes them all and stops with index N. -/
theorem fillHeadLoop_full (N : Nat) (cs : List Nat) :
    ∀ (arr : List Nat) (idx : Nat), arr.length = N → idx + cs.length = N →
      (∀ c ∈ cs, c ≠ 0) →
      fillHeadLoop N arr idx cs = (arr.take idx ++ cs, N) := by
  induction cs with
  | nil =>
    intro arr idx harr hlen _
    simp only [List.length_nil, Nat.add_zero] at hlen
    subst hlen
    simp only [fillHeadLoop, List.append_nil]
    rw [← harr, List.take_length]
  | cons c cs ih =>
    intro arr idx harr hlen hnz
    have hc : c ≠ 0 := hnz c (by simp)
    have hlen1 : idx + 1 + cs.length = N := by
      simp only [List.length_cons] at hlen; omega
    have hidx : idx < N := by omega
    simp only [fillHeadLoop, if_pos hc]
    by_cases hbreak : idx + 1 = N
    · have hcs : cs = [] := by
        have : cs.length = 0 := by omega
        exact List.eq_nil_of_length_eq_zero this
      subst hcs
      rw [if_pos hbreak]
      have hdrop : arr.drop (idx + 1) = [] :=
        List.drop_eq_nil_of_le (by omega)
      rw [set_eq_take_cons_drop arr idx c (by omega), hdrop, hbreak]
    · rw [if_neg hbreak]
      rw [ih (arr.set idx c) (idx + 1) (by simp [harr]) hlen1
        (fun d hd => hnz d (by simp [hd]))]
      rw [take_succ_set arr idx c (by omega)]
      simp

/-- C7 counterexample: for N = 2 and the input [0, 97, 98] (longer than N),
fill produces [97, 0] — the copy loop examines only the first N characters,
so the zero among them leaves k < N and triggers terminator writing — while
the claim predicts the first N non-zero-skipped bytes [97, 98]. -/
theorem claim_C7_counterexample :
    (ByteArray.fill 2 [0, 97, 98]).1 = [97, 0] ∧
    ([0, 97, 98].filter (fun b => b != 0)).take 2 = [97, 98] ∧
    ¬ ((ByteArray.fill 2 [0, 97, 98]).1
        = ([0, 97, 98].filter (fun b => b != 0)).take 2) := by
  decide

/-- C7 amended: for every input string longer than N whose first N bytes are
all nonzero, constructing a ByteArray of size N from it yields exactly those
first N bytes, with no hash-based padding applied (k = N leaves no room for
a terminator or padding). -/
theorem claim_C7_amended (N : Nat) (str : List Nat) (hN : 0 < N) (hlen : N < str.length)
    (hbytes : ∀ c ∈ str, c < 256) (hnz : ∀ c ∈ str.take N, c ≠ 0) :
    (ByteArray.fill N str).1 = str.take N := by
  unfold ByteArray.fill ByteArray.fillHead
  rw [if_neg (by omega)]
  have htake_len : (str.take N).length = N := by
    rw [List.length_take]; omega
  rw [fillHeadLoop_full N (str.take N) (List.replicate N 0) 0 (by simp)
    (by simp [htake_len]) hnz]
  simp only [List.take_zero, List.nil_append]
  simp only [ByteArray.fillTail]
  rw [if_neg (by omega), if_neg (by omega)]
  unfold fillTailLoop
  rw [Nat.sub_self]
  rfl

/-- C7 witness for the amended claim: a 3-character all-nonzero input into a
2-byte array keeps exactly its first two bytes. -/
theorem claim_C7_witness :
    (ByteArray.fill 2 [97, 98, 99]).1 = [97, 98, 99].take 2 :=
  claim_C7_amended 2 [97, 98, 99] (by decide) (by decide) (by decide) (by decide)

/-- The bytes the padding loop of fillTail actually writes: each step feeds
the zero byte found at the next position into the hash and stores the low
byte of the updated hash. -/
def zeroPadChain (h : Nat) : Nat → List Nat
  | 0 => []
  | n + 1 => (computeNextHash h 0 % 256) :: zeroPadChain (computeNextHash h 0) n

/-- Invariant of the copy loop when it starts on an array whose positions at
and above the write index are all zero: the result keeps its length, the
final index lies between the initial index and N, and every position at or
above the final index is still zero. -/
theorem fillHeadLoop_inv (N : Nat) (cs : List Nat) :
    ∀ (arr : List Nat) (idx : Nat), arr.length = N → idx < N →
      (∀ j, idx ≤ j → arr.getD j 0 = 0) →
      ((fillHeadLoop N arr idx cs).1.length = N ∧
       idx ≤ (fillHeadLoop N arr idx cs).2 ∧
       (fillHeadLoop N arr idx cs).2 ≤ N ∧
       (∀ j, (fillHeadLoop N arr idx cs).2 ≤ j →
         (fillHeadLoop N arr idx cs).1.getD j 0 = 0)) := by
  induction cs with
  | nil =>
    intro arr idx harr hidx hzero
    exact ⟨harr, Nat.le_refl idx, Nat.le_of_lt hidx, hzero⟩
  | cons c cs ih =>
    intro arr idx harr hidx hzero
    by_cases hc : c ≠ 0
    · simp only [fillHeadLoop, if_pos hc]
      have hzero1 : ∀ j, idx + 1 ≤ j → (arr.set idx c).getD j 0 = 0 := by
        intro j hj
        rw [getD_set_ne arr idx j c (by omega)]
        exact hzero j (by omega)
      by_cases hbreak : idx + 1 = N
      · rw [if_pos hbreak]
        exact ⟨by simp [harr], Nat.le_succ idx, by omega, hzero1⟩
      · rw [if_neg hbreak]
        have h := ih (arr.set idx c) (idx + 1) (by simp [harr]) (by omega) hzero1
        exact ⟨h.1, Nat.le_trans (Nat.le_succ idx) h.2.1, h.2.2.1, h.2.2.2⟩
    · simp only [fillHeadLoop, if_neg hc]
      exact ih arr idx harr hidx hzero

/-- What the padding loop writes when run to completion over positions that
currently hold zero: the prefix below the start index is kept and every
remaining position receives the corresponding byte of the zero-fed hash
chain. -/
theorem fillTailGo_pad (N : Nat) (n : Nat) :
    ∀ (arr : List Nat) (f h : Nat), arr.length = N → f + n = N →
      (∀ j, f ≤ j → arr.getD j 0 = 0) →
      (fillTailGo N n arr f h).1 = arr.take f ++ zeroPadChain h n := by
  induction n with
  | zero =>
    intro arr f h harr hfn _
    have hf : f = N := by omega
    subst hf
    simp only [fillTailGo, zeroPadChain, List.append_nil]
    rw [← harr, List.take_length]
  | succ n ih =>
    intro arr f h harr hfn hzero
    have hf : f < N := by omega
    simp only [fillTailGo, if_pos hf]
    have hread : arr.getD (f % N) 0 = 0 := by
      rw [Nat.mod_eq_of_lt hf]
      exact hzero f (Nat.le_refl f)
    rw [hread]
    have hzero1 : ∀ j, f + 1 ≤ j →
        (arr.set f (computeNextHash h 0 % 256)).getD j 0 = 0 := by
      intro j hj
      rw [getD_set_ne arr f j _ (by omega)]
      exact hzero j (by omega)
    rw [ih (arr.set f (computeNextHash h 0 % 256)) (f + 1) (computeNextHash h 0)
      (by simp [harr]) (by omega) hzero1]
    rw [take_succ_set arr f _ (by omega)]
    simp [zeroPadChain]

/-- C8 counterexample: for N = 4 and the one-byte input [97], the code pads
position 3 with 108, but updating the FNV-1a hash with the most recently
written byte (228 at position 2) predicts 0 there: the loop actually feeds
in the still-zero byte at the position about to be written, not the byte
most recently written. -/
theorem claim_C8_counterexample :
    (ByteArray.fill 4 [97]).1 = [97, 0, 228, 108] ∧
    computeNextHash (computeHash [97, 0, 0, 0] HashInit 1) 0 % 256 = 228 ∧
    computeNextHash (computeNextHash (computeHash [97, 0, 0, 0] HashInit 1) 0)
        228 % 256 = 0 ∧
    (ByteArray.fill 4 [97]).1 ≠ [97, 0, 228, 0] := by
  decide

/-- C8 amended: for every input whose copy phase fills k bytes with 0 < k
and k + 1 < N, fill pads each remaining position by updating the running
FNV-1a hash (init 14695981039346656037, prime 1099511628211) with the byte
currently stored at that position — always zero, because the array was
cleared and never written at or beyond those positions — and writing the
low byte of the updated hash, until the array is full; the result is the
copied prefix, a zero terminator, then the zero-fed hash chain. -/
theorem claim_C8_amended (N : Nat) (str : List Nat) (a1 : List Nat) (k : Nat)
    (hhead : ByteArray.fillHead N (List.replicate N 0) str = (a1, k))
    (hk : 0 < k) (hkN : k + 1 < N) :
    (ByteArray.fill N str).1
      = a1.take k ++ 0 :: zeroPadChain (computeHash a1 HashInit k) (N - (k + 1)) := by
  have hN : 0 < N := by omega
  have hrep : ∀ j : Nat, 0 ≤ j → (List.replicate N 0).getD j 0 = 0 := by
    intro j _
    rcases Nat.lt_or_ge j N with hj | hj
    · simp [List.getD_eq_getElem?_getD, List.getElem?_replicate, hj]
    · simp [List.getD_eq_getElem?_getD, List.getElem?_eq_none
        (by simpa using hj : (List.replicate N 0).length ≤ j)]
  have hinv : a1.length = N ∧ ∀ j, k ≤ j → a1.getD j 0 = 0 := by
    unfold ByteArray.fillHead at hhead
    by_cases hc : str.length ≤ N
    · rw [if_pos hc] at hhead
      have h := fillHeadLoop_inv N str (List.replicate N 0) 0 (by simp) hN hrep
      rw [hhead] at h
      exact ⟨h.1, h.2.2.2⟩
    · rw [if_neg hc] at hhead
      have h := fillHeadLoop_inv N (str.take N) (List.replicate N 0) 0 (by simp) hN hrep
      rw [hhead] at h
      exact ⟨h.1, h.2.2.2⟩
  unfold ByteArray.fill
  rw [hhead]
  simp only [ByteArray.fillTail]
  rw [if_neg (by omega), if_pos (by omega)]
  unfold fillTailLoop
  have hzero1 : ∀ j, k + 1 ≤ j → (a1.set k 0).getD j 0 = 0 := by
    intro j hj
    rw [getD_set_ne a1 k j 0 (by omega)]
    exact hinv.2 j (by omega)
  rw [fillTailGo_pad N (N - (k + 1)) (a1.set k 0) (k + 1)
    (computeHash a1 HashInit k) (by simp [hinv.1]) (by omega) hzero1]
  rw [take_succ_set a1 k 0 (by omega)]
  simp

/-- C8 witness for the amended claim: the concrete instance N = 4,
input [97]. -/
theorem claim_C8_witness :
    (ByteArray.fill 4 [97]).1
      = [97, 0, 0, 0].take 1 ++ 0 ::
          zeroPadChain (computeHash [97, 0, 0, 0] HashInit 1) (4 - (1 + 1)) :=
  claim_C8_amended 4 [97] [97, 0, 0, 0] 1 (by decide) (by decide) (by decide)

/-- C1: writing a swappable value (any width in {1, 2, 4, 8}) with the safe
pushBack into a buffer of exactly sufficient size and reading it back with
popFront or popBack yields the original value, and the same holds for a
fixed-length span read back with the span popFront, for every combination
of native byte order and buffer encoding. -/
theorem claim_C1_roundtrip (native enc : Endian) (w x : Nat) (mem0 memS dest xs : List Nat)
    (hw : w = 1 ∨ w = 2 ∨ w = 4 ∨ w = 8) (hx : x < 2 ^ (8 * w)) (hmem : mem0.length = w)
    (hxs : ∀ y ∈ xs, y < 2 ^ (8 * w)) (hmemS : memS.length = w * xs.length)
    (hdest : dest.length = xs.length) :
    (WBuf.pushBack native enc w x { mem := mem0, b := 0, e := w }).1 = false ∧
    (RBuf.popFront native enc w 0
        { mem := (WBuf.pushBack native enc w x { mem := mem0, b := 0, e := w }).2.mem,
          b := 0, e := w }).1 = false ∧
    (RBuf.popFront native enc w 0
        { mem := (WBuf.pushBack native enc w x { mem := mem0, b := 0, e := w }).2.mem,
          b := 0, e := w }).2.1 = x ∧
    (RBuf.popBack native enc w 0
        { mem := (WBuf.pushBack native enc w x { mem := mem0, b := 0, e := w }).2.mem,
          b := 0, e := w }).1 = false ∧
    (RBuf.popBack native enc w 0
        { mem := (WBuf.pushBack native enc w x { mem := mem0, b := 0, e := w }).2.mem,
          b := 0, e := w }).2.1 = x ∧
    (WBuf.pushBackSpan native enc w xs
        { mem := memS, b := 0, e := w * xs.length }).1 = false ∧
    (RBuf.popFrontSpan native enc w dest
        { mem := (WBuf.pushBackSpan native enc w xs
            { mem := memS, b := 0, e := w * xs.length }).2.mem,
          b := 0, e := w * xs.length }).1 = false ∧
    (RBuf.popFrontSpan native enc w dest
        { mem := (WBuf.pushBackSpan native enc w xs
            { mem := memS, b := 0, e := w * xs.length }).2.mem,
          b := 0, e := w * xs.length }).2.1 = xs := by
  have hblock : (basicCopyWrite native enc w x).length = w :=
    basicCopyWrite_length native enc w x
  have hpush : WBuf.pushBack native enc w x { mem := mem0, b := 0, e := w }
      = (false, { mem := basicCopyWrite native enc w x, b := 0 + w, e := w }) := by
    unfold WBuf.pushBack WBuf.unsafePushBack
    rw [if_pos (by simp)]
    rw [writeAt_exact mem0 _ (by rw [hmem, hblock])]
  have hpushS : WBuf.pushBackSpan native enc w xs
        { mem := memS, b := 0, e := w * xs.length }
      = (false, { mem := basicCopyWriteSpan native enc w xs,
                  b := 0 + w * xs.length, e := w * xs.length }) := by
    unfold WBuf.pushBackSpan WBuf.unsafePushBackSpan
    rw [if_pos (by simp)]
    rw [writeAt_exact memS _ (by rw [hmemS, basicCopyWriteSpan_length])]
  rw [hpush, hpushS]
  refine ⟨rfl, ?_, ?_, ?_, ?_, rfl, ?_, ?_⟩
  · unfold RBuf.popFront
    rw [if_pos (by simp)]
  · unfold RBuf.popFront RBuf.unsafePopFront
    rw [if_pos (by simp)]
    simp only [List.drop_zero]
    exact basicCopyRead_basicCopyWrite native enc w x hx
  · unfold RBuf.popBack
    rw [if_pos (by simp)]
  · unfold RBuf.popBack RBuf.unsafePopBack
    rw [if_pos (by simp)]
    simp only [Nat.sub_self, List.drop_zero]
    exact basicCopyRead_basicCopyWrite native enc w x hx
  · unfold RBuf.popFrontSpan
    rw [hdest, if_pos (by simp)]
  · unfold RBuf.popFrontSpan RBuf.unsafePopFrontSpan
    rw [hdest, if_pos (by simp)]
    simp only [List.drop_zero]
    rw [← List.append_nil (basicCopyWriteSpan native enc w xs)]
    exact basicCopyReadSpan_roundtrip native enc w xs [] hxs

/-- C1 witness: a 4-byte value and a 2-element 2-byte span on a big-endian
native machine writing little-endian stream order. -/
theorem claim_C1_witness :
    (RBuf.popFront Endian.big Endian.little 4 0
        { mem := (WBuf.pushBack Endian.big Endian.little 4 305419896
            { mem := [9, 9, 9, 9], b := 0, e := 4 }).2.mem,
          b := 0, e := 4 }).2.1 = 305419896 ∧
    (RBuf.popFrontSpan Endian.big Endian.little 2 [0, 0]
        { mem := (WBuf.pushBackSpan Endian.big Endian.little 2 [513, 65535]
            { mem := [7, 7, 7, 7], b := 0, e := 2 * 2 }).2.mem,
          b := 0, e := 2 * 2 }).2.1 = [513, 65535] :=
  have h1 := claim_C1_roundtrip Endian.big Endian.little 4 305419896
    [9, 9, 9, 9] [] [] [] (by norm_num) (by norm_num) (by decide)
    (by intro y hy; cases hy) (by decide) (by decide)
  have h2 := claim_C1_roundtrip Endian.big Endian.little 2 0
    [0, 0] [7, 7, 7, 7] [0, 0] [513, 65535] (by norm_num) (by norm_num) (by decide)
    (by decide) (by decide) (by decide)
  ⟨h1.2.2.1, h2.2.2.2.2.2.2.2⟩

/- ### C9: growable-vector appends versus a single pre-sized buffer -/

/-- Total number of bytes a sequence of (width, value) pairs encodes to. -/
def encodedLen (ps : List (Nat × Nat)) : Nat := (ps.map (fun p => p.1)).sum

/-- The concatenated encodings of a sequence of (width, value) pairs. -/
def encodeBlocks (native enc : Endian) (ps : List (Nat × Nat)) : List Nat :=
  (ps.map (fun p => basicCopyWrite native enc p.1 p.2)).flatten

theorem encodeBlocks_length (native enc : Endian) (ps : List (Nat × Nat)) :
    (encodeBlocks native enc ps).length = encodedLen ps := by
  induction ps with
  | nil => rfl
  | cons p ps ih =>
    simp only [encodeBlocks, encodedLen, List.map_cons, List.flatten_cons,
      List.length_append, basicCopyWrite_length, List.sum_cons] at ih ⊢
    omega

/-- Appending each value in order through the growable pushBack. -/
def pushAllVec (native enc : Endian) (ps : List (Nat × Nat)) (v : BVec) : BVec :=
  ps.foldl (fun v p => v.pushBack native enc p.1 p.2) v

/-- Writing each value in order through the fixed-buffer safe pushBack. -/
def pushAllBuf (native enc : Endian) (ps : List (Nat × Nat)) (s : WBuf) : WBuf :=
  ps.foldl (fun s p => (s.pushBack native enc p.1 p.2).2) s

theorem take_append_le (l1 l2 : List Nat) (n : Nat) (h : n ≤ l1.length) :
    (l1 ++ l2).take n = l1.take n := by
  rw [List.take_append_eq_append_take, Nat.sub_eq_zero_of_le h]
  simp

theorem writeAt_length (mem bs : List Nat) (off : Nat) (h : off + bs.length ≤ mem.length) :
    (writeAt mem off bs).length = mem.length := by
  unfold writeAt
  simp only [List.length_append, List.length_take, List.length_drop]
  omega

theorem writeAt_take (mem bs : List Nat) (off : Nat) (h : off ≤ mem.length) :
    (writeAt mem off bs).take (off + bs.length) = mem.take off ++ bs := by
  unfold writeAt
  rw [show mem.take off ++ bs ++ mem.drop (off + bs.length)
      = (mem.take off ++ bs) ++ mem.drop (off + bs.length) from rfl]
  rw [List.take_left' (by simp only [List.length_append, List.length_take]; omega)]

theorem writeAt_drop_ge (mem bs : List Nat) (off k : Nat) (h : off ≤ mem.length) :
    (writeAt mem off bs).drop (off + bs.length + k) = mem.drop (off + bs.length + k) := by
  unfold writeAt
  have hlen : (mem.take off ++ bs).length = off + bs.length := by
    simp only [List.length_append, List.length_take]; omega
  rw [show mem.take off ++ bs ++ mem.drop (off + bs.length)
      = (mem.take off ++ bs) ++ mem.drop (off + bs.length) from rfl]
  conv_lhs => rw [show off + bs.length + k = (mem.take off ++ bs).length + k by rw [hlen]]
  rw [List.drop_append, List.drop_drop]

/-- Two consecutive writes compose into one write of the concatenated
blocks. -/
theorem writeAt_writeAt (mem bs1 bs2 : List Nat) (off : Nat) (h : off ≤ mem.length) :
    writeAt (writeAt mem off bs1) (off + bs1.length) bs2
      = writeAt mem off (bs1 ++ bs2) := by
  conv_lhs => rw [writeAt]
  rw [writeAt_take mem bs1 off h]
  have hd : (writeAt mem off bs1).drop (off + bs1.length + bs2.length)
      = mem.drop (off + bs1.length + bs2.length) :=
    writeAt_drop_ge mem bs1 off bs2.length h
  rw [hd]
  unfold writeAt
  simp [List.append_assoc, List.length_append, Nat.add_assoc]

/-- One growable pushBack: the logical size grows by sizeof(T), capacity
stays sufficient, and the logical content gains exactly the encoding of the
value. -/
theorem BVec.pushBack_spec (native enc : Endian) (w x : Nat) (v : BVec)
    (h : v.msize ≤ v.mdata.length) :
    (v.pushBack native enc w x).msize = v.msize + w ∧
    v.msize + w ≤ (v.pushBack native enc w x).mdata.length ∧
    (v.pushBack native enc w x).mdata.take (v.msize + w)
      = v.mdata.take v.msize ++ basicCopyWrite native enc w x := by
  have hblock : (basicCopyWrite native enc w x).length = w :=
    basicCopyWrite_length native enc w x
  have hres : ∃ d : List Nat, v.reserveExtra w = { msize := v.msize, mdata := d } ∧
      v.msize + w ≤ d.length ∧ d.take v.msize = v.mdata.take v.msize := by
    unfold BVec.reserveExtra
    by_cases hc : v.mdata.length < v.msize + w
    · refine ⟨v.mdata ++ List.replicate (v.msize + w - v.mdata.length) 0, ?_, ?_, ?_⟩
      · rw [if_pos hc]
      · simp only [List.length_append, List.length_replicate]
        omega
      · exact take_append_le _ _ _ h
    · exact ⟨v.mdata, by rw [if_neg hc], by omega, rfl⟩
  obtain ⟨d, hd, hdlen, hdtake⟩ := hres
  unfold BVec.pushBack
  rw [hd]
  unfold BVec.unsafePushBack
  refine ⟨rfl, ?_, ?_⟩
  · simp only []
    rw [writeAt_length d _ v.msize (by rw [hblock]; omega)]
    exact hdlen
  · simp only []
    rw [show v.msize + w = v.msize + (basicCopyWrite native enc w x).length
        by rw [hblock]]
    rw [writeAt_take d _ v.msize (by omega)]
    rw [hdtake]

/-- Folding the growable pushBack over a sequence of values appends exactly
their concatenated encodings to the logical content. -/
theorem pushAllVec_spec (native enc : Endian) (ps : List (Nat × Nat)) :
    ∀ v : BVec, v.msize ≤ v.mdata.length →
      (pushAllVec native enc ps v).msize = v.msize + encodedLen ps ∧
      v.msize + encodedLen ps ≤ (pushAllVec native enc ps v).mdata.length ∧
      (pushAllVec native enc ps v).mdata.take (v.msize + encodedLen ps)
        = v.mdata.take v.msize ++ encodeBlocks native enc ps := by
  induction ps with
  | nil =>
    intro v hv
    refine ⟨by simp [pushAllVec, encodedLen], ?_, ?_⟩
    · simp only [pushAllVec, List.foldl_nil, encodedLen, List.map_nil, List.sum_nil,
        Nat.add_zero]
      exact hv
    · simp [pushAllVec, encodedLen, encodeBlocks]
  | cons p ps ih =>
    intro v hv
    have hstep := BVec.pushBack_spec native enc p.1 p.2 v hv
    have hrec := ih (v.pushBack native enc p.1 p.2) (by omega)
    have htot : encodedLen (p :: ps) = p.1 + encodedLen ps := by
      simp [encodedLen]
    have hfold : pushAllVec native enc (p :: ps) v
        = pushAllVec native enc ps (v.pushBack native enc p.1 p.2) := rfl
    refine ⟨?_, ?_, ?_⟩
    · rw [hfold, hrec.1, hstep.1, htot]; ring
    · rw [hfold]
      have := hrec.2.1
      rw [hstep.1] at this
      omega
    · rw [hfold, htot, show v.msize + (p.1 + encodedLen ps)
          = (v.msize + p.1) + encodedLen ps by ring]
      rw [← hstep.1]
      rw [hrec.2.2]
      rw [hstep.1, hstep.2.2]
      simp only [encodeBlocks, List.map_cons, List.flatten_cons, List.append_assoc]

/-- Folding the fixed-buffer safe pushBack over a sequence of values that
fits writes exactly their concatenated encodings at the initial cursor. -/
theorem pushAllBuf_spec (native enc : Endian) (ps : List (Nat × Nat)) :
    ∀ s : WBuf, s.e ≤ s.mem.length → s.b + encodedLen ps ≤ s.e →
      pushAllBuf native enc ps s
        = { mem := writeAt s.mem s.b (encodeBlocks native enc ps),
            b := s.b + encodedLen ps, e := s.e } := by
  induction ps with
  | nil =>
    intro s hse hfit
    simp only [pushAllBuf, List.foldl_nil, encodedLen, encodeBlocks, List.map_nil,
      List.sum_nil, List.flatten_nil, Nat.add_zero]
    unfold writeAt
    simp
  | cons p ps ih =>
    intro s hse hfit
    have htot : encodedLen (p :: ps) = p.1 + encodedLen ps := by
      simp [encodedLen]
    have hwle : s.b + p.1 ≤ s.e := by rw [htot] at hfit; omega
    have hblock : (basicCopyWrite native enc p.1 p.2).length = p.1 :=
      basicCopyWrite_length native enc p.1 p.2
    have hstep : (s.pushBack native enc p.1 p.2).2 = s.unsafePushBack native enc p.1 p.2 := by
      unfold WBuf.pushBack
      rw [if_pos hwle]
    have hfold : pushAllBuf native enc (p :: ps) s
        = pushAllBuf native enc ps (s.pushBack native enc p.1 p.2).2 := rfl
    rw [hfold, hstep]
    unfold WBuf.unsafePushBack
    have hlen1 : (writeAt s.mem s.b (basicCopyWrite native enc p.1 p.2)).length
        = s.mem.length :=
      writeAt_length s.mem _ s.b (by rw [hblock]; omega)
    rw [ih { mem := writeAt s.mem s.b (basicCopyWrite native enc p.1 p.2),
             b := s.b + p.1, e := s.e }
        (by simp only []; rw [hlen1]; exact hse)
        (by simp only []; rw [htot] at hfit; omega)]
    simp only [WBuf.mk.injEq]
    refine ⟨?_, ?_, trivial⟩
    · rw [show s.b + p.1 = s.b + (basicCopyWrite native enc p.1 p.2).length
          by rw [hblock]]
      rw [writeAt_writeAt s.mem _ _ s.b (by omega)]
      simp only [encodeBlocks, List.map_cons, List.flatten_cons]
    · rw [htot]
      ring

/-- C9: appending a sequence of swappable values one at a time to an
initially empty growable vector (each append ensuring capacity through
reserveExtra) produces exactly the same logical size and the same bytes as
encoding all of them in order into a single fixed write buffer pre-sized to
the total encoded length. -/
theorem claim_C9_growable_matches_presized (native enc : Endian) (ps : List (Nat × Nat)) :
    (pushAllVec native enc ps { msize := 0, mdata := [] }).msize = encodedLen ps ∧
    (pushAllBuf native enc ps
        { mem := List.replicate (encodedLen ps) 0, b := 0, e := encodedLen ps }).b
      = encodedLen ps ∧
    (pushAllVec native enc ps { msize := 0, mdata := [] }).mdata.take
        (pushAllVec native enc ps { msize := 0, mdata := [] }).msize
      = (pushAllBuf native enc ps
          { mem := List.replicate (encodedLen ps) 0, b := 0, e := encodedLen ps }).mem := by
  have hv := pushAllVec_spec native enc ps { msize := 0, mdata := [] } (by simp)
  have hb := pushAllBuf_spec native enc ps
    { mem := List.replicate (encodedLen ps) 0, b := 0, e := encodedLen ps }
    (by simp) (by simp)
  simp only [] at hv hb
  refine ⟨by rw [hv.1]; omega, by rw [hb]; simp, ?_⟩
  rw [hv.1, hb]
  simp only []
  rw [writeAt_exact _ _ (by simp [encodeBlocks_length])]
  have := hv.2.2
  simpa using this
